import Mathlib

/-!
Shallow embedding of `build/split-release-for-github.js`: a tool that splits
oversized release artifacts into numbered part files.  Absolute POSIX paths
are modelled as lists of segments; the filesystem as an explicit record of
directories and files; machine I/O loops as structurally recursive Lean
functions translated statement-by-statement from the source.
-/

namespace SplitRelease

/-- An absolute POSIX path, as its list of segments (root `/` implicit). -/
abbrev FilePath := List String

/-- The string form of a path, as Node's `path.join('/', ...)` would print it:
`/` followed by the segments joined with `/`. -/
def pathString (p : FilePath) : String :=
  "/" ++ String.intercalate "/" p

/-- Decides whether a character list, read in reverse, starts with two digits
followed by `trap.` — i.e. whether the original string ends with `.part` plus
exactly two digits, the alphabetic part case-insensitively.  This is the
regex `/\.part\d\x7b2\x7d$/i` of the source. -/
def isPartSuffixRev : List Char → Bool
  | d2 :: d1 :: c4 :: c3 :: c2 :: c1 :: c0 :: _ =>
    d2.isDigit && d1.isDigit && (c4.toLower == 't') && (c3.toLower == 'r') &&
      (c2.toLower == 'a') && (c1.toLower == 'p') && (c0 == '.')
  | _ => false

/-- The test `/\.part\d\x7b2\x7d$/i.test(s)` from the source (lines 71, 82). -/
def isPartSuffix (s : String) : Bool :=
  isPartSuffixRev s.data.reverse

/-- Source line 70-72: `isPartFile` applies the part-suffix regex to the whole
path string. -/
def isPartFile (p : FilePath) : Bool :=
  isPartSuffix (pathString p)

/-! ### The chunk writer (source lines 144-184), as a pure function

`writePart` is the inner loop (lines 167-175): starting at `offset` with
`remaining` bytes still owed to the current part, it repeatedly issues a read
of `min bufferBytes remaining` bytes at `offset`; the read returns
`min readSize (data.length - offset)` bytes (what the file has left), the
loop appends them to the part and stops when a read returns no bytes.
It returns the bytes written to the part, the final offset, and the list of
issued read-request sizes.  The extra first `Nat` is iteration fuel: callers
pass `remaining` as fuel, which is never exhausted because every iteration
that does not break consumes at least one byte. -/

def writePart (data : List Nat) (bufferBytes : Nat) :
    Nat → Nat → Nat → List Nat × Nat × List Nat
  | 0, offset, _ => ([], offset, [])
  | fuel + 1, offset, remaining =>
    if remaining = 0 then ([], offset, [])
    else
      let readSize := min bufferBytes remaining
      let bytesRead := min readSize (data.length - offset)
      if bytesRead = 0 then ([], offset, [readSize])
      else
        let chunk := (data.drop offset).take bytesRead
        let rest := writePart data bufferBytes fuel (offset + bytesRead) (remaining - bytesRead)
        (chunk ++ rest.1, rest.2.1, readSize :: rest.2.2)

/-- The outer loop of `splitFileFromSource` (source lines 153-181) in real
(non-dry-run) mode.  While `offset < totalBytes` it opens part number `part`,
streams `min chunkBytes (totalBytes - offset)` bytes into it through
`writePart`, and recurses at the advanced offset.  `fuel` bounds the number
of iterations (the source loop does not terminate when `chunkBytes = 0` or
`bufferBytes = 0`; with positive sizes each iteration advances `offset`, so
`data.length + 1` fuel is never exhausted).  Returns the list of
(part number, part content) pairs and the list of all read-request sizes. -/
def splitLoop (data : List Nat) (chunkBytes bufferBytes : Nat) :
    Nat → Nat → Nat → List (Nat × List Nat) × List Nat
  | 0, _, _ => ([], [])
  | fuel + 1, offset, part =>
    if offset < data.length then
      let remaining := min chunkBytes (data.length - offset)
      let w := writePart data bufferBytes remaining offset remaining
      let rest := splitLoop data chunkBytes bufferBytes fuel w.2.1 (part + 1)
      ((part, w.1) :: rest.1, w.2.2 ++ rest.2)
    else ([], [])

/-- Zero-pads a part number to two digits, as `String(part).padStart(2, '0')`
(source line 154). -/
def pad2 (n : Nat) : String :=
  if n < 10 then "0" ++ toString n else toString n

/-- The name of part number `i` for a base name (source line 154). -/
def partFileName (baseName : String) (i : Nat) : String :=
  baseName ++ ".part" ++ pad2 i

/-- The parts produced by one run of the chunk writer on a source file with
bytes `data`: part contents in part-number (= production) order. -/
def splitFileParts (data : List Nat) (chunkBytes bufferBytes : Nat) : List (List Nat) :=
  ((splitLoop data chunkBytes bufferBytes (data.length + 1) 0 1).1).map (·.2)

/-- All read-request sizes issued by one run of the chunk writer. -/
def splitFileReads (data : List Nat) (chunkBytes bufferBytes : Nat) : List Nat :=
  (splitLoop data chunkBytes bufferBytes (data.length + 1) 0 1).2

/-- Reference chunking: cut a list into consecutive pieces of `c + 1`
elements (the last piece possibly shorter).  Used as the inductive shape the
chunk writer is proved to follow for chunk size `c + 1`. -/
def chunksOf (c : Nat) : List Nat → List (List Nat)
  | [] => []
  | x :: xs => ((x :: xs).take (c + 1)) :: chunksOf c ((x :: xs).drop (c + 1))
termination_by l => l.length
decreasing_by
  simp
  omega

/-! ### Correctness of the chunk writer -/

theorem take_add_append (a c : Nat) (l : List Nat) :
    l.take (a + c) = l.take a ++ (l.drop a).take c := by
  induction a generalizing l with
  | zero => simp
  | succ a ih =>
    cases l with
    | nil => simp
    | cons x xs =>
      simp only [List.drop_succ_cons, Nat.succ_add, List.take_succ_cons, List.cons_append,
        List.cons.injEq, true_and]
      exact ih xs

theorem writePart_spec (data : List Nat) (b : Nat) (hb : 0 < b) :
    ∀ fuel remaining offset, remaining ≤ fuel → offset + remaining ≤ data.length →
      (writePart data b fuel offset remaining).1 = (data.drop offset).take remaining ∧
      (writePart data b fuel offset remaining).2.1 = offset + remaining := by
  intro fuel
  induction fuel with
  | zero =>
    intro remaining offset hf hle
    have h0 : remaining = 0 := by omega
    simp [writePart, h0]
  | succ fuel ih =>
    intro remaining offset hf hle
    rw [writePart]
    by_cases h0 : remaining = 0
    · simp [h0]
    · have hbr : min (min b remaining) (data.length - offset) = min b remaining := by omega
      have hpos : 0 < min b remaining := by omega
      simp only [h0, if_false, hbr]
      have hne : ¬ (min b remaining = 0) := by omega
      simp only [hne, if_false]
      have ihm := ih (remaining - min b remaining) (offset + min b remaining)
        (by omega) (by omega)
      refine ⟨?_, ?_⟩
      · rw [ihm.1]
        rw [show data.drop (offset + min b remaining)
              = (data.drop offset).drop (min b remaining) from (List.drop_drop _ _ _).symm]
        rw [← take_add_append]
        congr 1
        omega
      · rw [ihm.2]; omega

theorem writePart_reads_le (data : List Nat) (b : Nat) :
    ∀ fuel remaining offset r, r ∈ (writePart data b fuel offset remaining).2.2 → r ≤ b := by
  intro fuel
  induction fuel with
  | zero => intro remaining offset r hr; simp [writePart] at hr
  | succ fuel ih =>
    intro remaining offset r hr
    rw [writePart] at hr
    by_cases h0 : remaining = 0
    · simp [h0] at hr
    · simp only [h0, if_false] at hr
      by_cases h2 : min (min b remaining) (data.length - offset) = 0
      · simp only [h2, if_true] at hr
        simp at hr
        omega
      · simp only [h2, if_false, List.mem_cons] at hr
        rcases hr with hr | hr
        · omega
        · exact ih _ _ _ hr

theorem splitLoop_parts (data : List Nat) (C b : Nat) (hC : 0 < C) (hb : 0 < b) :
    ∀ fuel offset part, offset ≤ data.length → data.length - offset ≤ fuel →
      ((splitLoop data C b fuel offset part).1).map (·.2) =
        chunksOf (C - 1) (data.drop offset) := by
  intro fuel
  induction fuel with
  | zero =>
    intro offset part h1 h2
    have : offset = data.length := by omega
    simp [splitLoop, this, List.drop_length, chunksOf]
  | succ fuel ih =>
    intro offset part h1 h2
    rw [splitLoop]
    by_cases hlt : offset < data.length
    · simp only [hlt, if_true]
      have hrem : offset + min C (data.length - offset) ≤ data.length := by omega
      have hw := writePart_spec data b hb (min C (data.length - offset))
        (min C (data.length - offset)) offset (le_refl _) hrem
      simp only [List.map_cons, hw.1, hw.2]
      rw [ih (offset + min C (data.length - offset)) (part + 1) (by omega) (by omega)]
      obtain ⟨x, xs, hxs⟩ : ∃ x xs, data.drop offset = x :: xs := by
        cases hdo : data.drop offset with
        | nil =>
          exfalso
          have := List.length_drop offset data
          rw [hdo] at this
          simp at this
          omega
        | cons x xs => exact ⟨x, xs, rfl⟩
      have hlen : (data.drop offset).length = data.length - offset := List.length_drop _ _
      rw [hxs]
      rw [chunksOf]
      have hC1 : C - 1 + 1 = C := by omega
      rw [hC1]
      congr 1
      · rw [← hxs]
        rw [List.take_eq_take]
        rw [hlen]
        omega
      · rw [← hxs]
        rw [show data.drop (offset + min C (data.length - offset))
              = (data.drop offset).drop (min C (data.length - offset)) from
            (List.drop_drop _ _ _).symm]
        by_cases hcm : C ≤ data.length - offset
        · rw [Nat.min_eq_left hcm]
        · have hm : min C (data.length - offset) = data.length - offset := by omega
          rw [hm]
          rw [List.drop_eq_nil_of_le (by omega), List.drop_eq_nil_of_le (by rw [hlen]; omega)]
    · simp only [hlt, if_false, List.map_nil]
      have : offset = data.length := by omega
      simp [this, List.drop_length, chunksOf]

theorem chunksOf_nil (c : Nat) : chunksOf c ([] : List Nat) = [] := by
  rw [chunksOf]

theorem chunksOf_cons (c x : Nat) (xs : List Nat) :
    chunksOf c (x :: xs) = ((x :: xs).take (c + 1)) :: chunksOf c ((x :: xs).drop (c + 1)) := by
  rw [chunksOf]

theorem chunksOf_flatten (c : Nat) (l : List Nat) : (chunksOf c l).flatten = l := by
  induction l using chunksOf.induct c with
  | case1 => simp [chunksOf_nil]
  | case2 x xs ih =>
    rw [chunksOf_cons]
    simp only [List.flatten_cons, ih, List.take_append_drop]

theorem chunksOf_length (c : Nat) (l : List Nat) :
    (chunksOf c l).length = (l.length + c) / (c + 1) := by
  induction l using chunksOf.induct c with
  | case1 => simp [chunksOf_nil, Nat.div_eq_of_lt]
  | case2 x xs ih =>
    rw [chunksOf_cons]
    simp only [List.length_cons, ih, List.length_drop]
    by_cases hle : xs.length + 1 ≤ c + 1
    · have h1 : xs.length + 1 - (c + 1) = 0 := by omega
      rw [h1]
      rw [Nat.div_eq_of_lt (show 0 + c < c + 1 by omega)]
      rw [Nat.div_eq_sub_div (show 0 < c + 1 by omega)
        (show c + 1 ≤ xs.length + 1 + c by omega)]
      rw [Nat.div_eq_of_lt (show xs.length + 1 + c - (c + 1) < c + 1 by omega)]
    · rw [Nat.div_eq_sub_div (show 0 < c + 1 by omega)
        (show c + 1 ≤ xs.length + 1 + c by omega)]
      congr 2
      omega

theorem chunksOf_getElem_length (c : Nat) (l : List Nat) :
    ∀ i (h : i < (chunksOf c l).length),
      (chunksOf c l)[i].length = min (c + 1) (l.length - (c + 1) * i) := by
  induction l using chunksOf.induct c with
  | case1 => intro i h; rw [chunksOf_nil] at h; simp at h
  | case2 x xs ih =>
    intro i h
    rcases i with _ | j
    · simp [chunksOf_cons]
      omega
    · have hj : j < (chunksOf c ((x :: xs).drop (c + 1))).length := by
        rw [chunksOf_cons] at h
        simpa using h
      have hrec := ih j hj
      simp only [chunksOf_cons, List.getElem_cons_succ]
      rw [hrec]
      simp only [List.length_drop, List.length_cons]
      have hmul : (c + 1) * (j + 1) = (c + 1) * j + (c + 1) := by ring
      omega

theorem chunksOf_ne_nil (c : Nat) (l : List Nat) : [] ∉ chunksOf c l := by
  induction l using chunksOf.induct c with
  | case1 => simp [chunksOf_nil]
  | case2 x xs ih =>
    rw [chunksOf_cons]
    simp only [List.mem_cons, not_or]
    exact ⟨by simp, ih⟩

theorem splitFileParts_eq_chunksOf (data : List Nat) (C b : Nat) (hC : 0 < C) (hb : 0 < b) :
    splitFileParts data C b = chunksOf (C - 1) data := by
  unfold splitFileParts
  rw [splitLoop_parts data C b hC hb (data.length + 1) 0 1 (by omega) (by omega)]
  simp

/-- C1: for every source file of size S bytes and every chunk size C > 0 (and
any positive read-buffer size), the chunk writer produces exactly
ceil(S / C) = (S + C - 1) / C part files (zero part files when S = 0), each
part of size C except the last, whose size is S - C * (N - 1) where N is the
part count; concatenating the parts in numeric (production) order reproduces
the source bytes exactly, and no empty part is ever produced — in particular
no trailing empty part when S is a multiple of C. -/
theorem split_part_count_sizes_concat (data : List Nat) (C b : Nat)
    (hC : 0 < C) (hb : 0 < b) :
    (splitFileParts data C b).length = (data.length + C - 1) / C
    ∧ (data.length = 0 → splitFileParts data C b = [])
    ∧ (∀ i p, (splitFileParts data C b)[i]? = some p →
        (i + 1 < (splitFileParts data C b).length → p.length = C)
        ∧ (i + 1 = (splitFileParts data C b).length →
            p.length = data.length - C * ((splitFileParts data C b).length - 1)))
    ∧ (splitFileParts data C b).flatten = data
    ∧ [] ∉ splitFileParts data C b := by
  obtain ⟨c, rfl⟩ : ∃ c, C = c + 1 := ⟨C - 1, by omega⟩
  have hbr : splitFileParts data (c + 1) b = chunksOf c data := by
    rw [splitFileParts_eq_chunksOf data (c + 1) b hC hb]
    congr 1
  rw [hbr]
  have hN := chunksOf_length c data
  refine ⟨?_, ?_, ?_, chunksOf_flatten c data, chunksOf_ne_nil c data⟩
  · rw [hN]
    congr 1
  · intro h0
    have : data = [] := List.eq_nil_of_length_eq_zero h0
    rw [this, chunksOf_nil]
  · intro i p hp
    rw [List.getElem?_eq_some_iff] at hp
    obtain ⟨h, rfl⟩ := hp
    rw [chunksOf_getElem_length c data i h]
    have hdm : (chunksOf c data).length * (c + 1) ≤ data.length + c := by
      rw [hN]
      exact Nat.div_mul_le_self _ _
    constructor
    · intro hilt
      have h1 : (i + 2) * (c + 1) ≤ (chunksOf c data).length * (c + 1) :=
        Nat.mul_le_mul_right _ (by omega)
      have hexp1 : (i + 2) * (c + 1) = (c + 1) * i + 2 * c + 2 := by ring
      omega
    · intro hiN
      have hd : (data.length + c) / (c + 1) < i + 2 := by omega
      have hup : data.length + c < (i + 2) * (c + 1) :=
        (Nat.div_lt_iff_lt_mul (by omega)).1 hd
      have hexp2 : (i + 2) * (c + 1) = (c + 1) * i + 2 * c + 2 := by ring
      rw [← hiN]
      have hisub : i + 1 - 1 = i := by omega
      rw [hisub]
      omega

/-- C7: during any execution of the chunk writer, every individual read
request is for at most `bufferBytes` bytes, regardless of the source file
size or the chunk size, so peak buffered data never exceeds the single
allocated read buffer of `bufferBytes` bytes. -/
theorem splitLoop_reads_le (data : List Nat) (C b : Nat) :
    ∀ fuel offset part r, r ∈ (splitLoop data C b fuel offset part).2 → r ≤ b := by
  intro fuel
  induction fuel with
  | zero => intro offset part r hr; simp [splitLoop] at hr
  | succ fuel ih =>
    intro offset part r hr
    rw [splitLoop] at hr
    by_cases hlt : offset < data.length
    · simp only [hlt, if_true, List.mem_append] at hr
      rcases hr with hr | hr
      · exact writePart_reads_le data b _ _ _ r hr
      · exact ih _ _ r hr
    · simp [hlt] at hr

theorem split_reads_bounded (data : List Nat) (C b r : Nat)
    (hr : r ∈ splitFileReads data C b) : r ≤ b :=
  splitLoop_reads_le data C b (data.length + 1) 0 1 r hr

/-! ### The path classifier `getBackupPath` (source lines 103-115)

The model works on normalized absolute POSIX paths as segment lists, fixing
the POSIX behaviour of Node's `path` module: `path.relative` drops the
longest common prefix and prepends one `..` per remaining base segment;
`path.isAbsolute` is false on every `path.relative` result (so that check of
line 105 is constantly false and is dropped); `path.parse(p).root` of an
absolute path is `/`, whose second character is never `:`, so the drive token
of line 112 is always the literal `ROOT` and `rest` (line 113) is the whole
path with the leading `/` stripped. -/

/-- Node `path.relative(base, p)` for normalized absolute paths, as segments. -/
def relativeSegs : FilePath → FilePath → FilePath
  | b :: bs, q :: qs =>
    if b = q then relativeSegs bs qs
    else List.replicate (b :: bs).length ".." ++ (q :: qs)
  | [], qs => qs
  | bs, [] => List.replicate bs.length ".."

/-- JavaScript `s.startsWith(pre)`: character-for-character prefix test,
computed on the underlying character lists. -/
def strStartsWith (s pre : String) : Bool :=
  pre.data.isPrefixOf s.data

/-- The check `relative.startsWith('..')` of source line 105: the joined
relative string starts with the two characters `..` exactly when its first
segment does. -/
def relStartsWithDotDot (rel : FilePath) : Bool :=
  match rel with
  | [] => false
  | s :: _ => strStartsWith s ".."

/-- The check `relative.includes(':')` of source line 105 on the joined
relative string: some segment contains a colon. -/
def relContainsColon (rel : FilePath) : Bool :=
  rel.any fun s => s.data.contains ':'

/-- Source line 9: `BACKUP_ROOT = path.join(REPO_ROOT, 'backup')`, for an
arbitrary repository root. -/
def backupRoot (repoRoot : FilePath) : FilePath :=
  repoRoot ++ ["backup"]

/-- Source lines 103-115: the path classifier.  A path whose repo-relative
form neither starts with `..` nor contains `:` is backed up at the mirrored
repo-relative location under the backup root; any other path goes under
`backup/_external/ROOT/` followed by the path with its root stripped. -/
def getBackupPath (repoRoot : FilePath) (p : FilePath) : FilePath :=
  let rel := relativeSegs repoRoot p
  let isInsideRepo := !relStartsWithDotDot rel && !relContainsColon rel
  if isInsideRepo then backupRoot repoRoot ++ rel
  else backupRoot repoRoot ++ ["_external", "ROOT"] ++ p

theorem relativeSegs_of_prefix :
    ∀ (root p : FilePath), root <+: p → relativeSegs root p = p.drop root.length := by
  intro root
  induction root with
  | nil => intro p _; rw [relativeSegs.eq_def]; cases p <;> simp
  | cons b bs ih =>
    intro p hp
    obtain ⟨t, rfl⟩ := hp
    have hstep : relativeSegs (b :: bs) ((b :: bs) ++ t) = relativeSegs bs (bs ++ t) := by
      simp [relativeSegs]
    rw [hstep, ih (bs ++ t) (List.prefix_append bs t)]
    simp

theorem relStartsWithDotDot_of_not_prefix :
    ∀ (root p : FilePath), ¬ root <+: p → relStartsWithDotDot (relativeSegs root p) = true := by
  intro root
  induction root with
  | nil => intro p hp; exact absurd (List.nil_prefix) hp
  | cons b bs ih =>
    intro p hp
    cases p with
    | nil =>
      simp only [relativeSegs, relStartsWithDotDot, List.length_cons, List.replicate_succ]
      decide
    | cons q qs =>
      by_cases hbq : b = q
      · subst hbq
        have hps : ¬ bs <+: qs := fun hc => hp (List.cons_prefix_cons.2 ⟨rfl, hc⟩)
        have hstep : relativeSegs (b :: bs) (b :: qs) = relativeSegs bs qs := by
          simp [relativeSegs]
        rw [hstep]
        exact ih qs hps
      · simp only [relativeSegs, if_neg hbq, relStartsWithDotDot, List.length_cons,
          List.replicate_succ, List.cons_append]
        decide

/-! ### String ordering

`localeCompare`-based sorting (source line 86) is modelled as lexicographic
order on character code points, which is what `localeCompare` computes for
the ASCII part-file names at issue. -/

/-- Lexicographic comparison of character lists by code point. -/
def charListLe : List Char → List Char → Bool
  | [], _ => true
  | _ :: _, [] => false
  | a :: as, b :: bs =>
    if a.toNat < b.toNat then true
    else if b.toNat < a.toNat then false
    else charListLe as bs

/-- String comparison, `a.localeCompare(b) <= 0` for ASCII strings. -/
def strLe (a b : String) : Bool :=
  charListLe a.data b.data

/-- The sort relation used for part-file paths. -/
def strLeRel (a b : String) : Prop := strLe a b = true

instance : DecidableRel strLeRel := fun a b => Bool.decEq (strLe a b) true

theorem charListLe_total : ∀ as bs, charListLe as bs = true ∨ charListLe bs as = true := by
  intro as
  induction as with
  | nil => intro bs; left; rfl
  | cons a as ih =>
    intro bs
    cases bs with
    | nil => right; rfl
    | cons b bs =>
      by_cases hab : a.toNat < b.toNat
      · left; simp [charListLe, hab]
      · by_cases hba : b.toNat < a.toNat
        · right; simp [charListLe, hba]
        · rcases ih bs with h | h
          · left; simp [charListLe, hab, hba, h]
          · right; simp [charListLe, hab, hba, h]

theorem charListLe_trans : ∀ as bs cs, charListLe as bs = true → charListLe bs cs = true →
    charListLe as cs = true := by
  intro as
  induction as with
  | nil => intro bs cs _ _; rfl
  | cons a as ih =>
    intro bs cs h1 h2
    cases bs with
    | nil => simp [charListLe] at h1
    | cons b bs =>
      cases cs with
      | nil => simp [charListLe] at h2
      | cons c cs =>
        simp only [charListLe] at h1 h2 ⊢
        by_cases hab : a.toNat < b.toNat
        · by_cases hbc : b.toNat < c.toNat
          · simp [show a.toNat < c.toNat by omega]
          · by_cases hcb : c.toNat < b.toNat
            · simp [hbc, hcb] at h2
            · simp [show a.toNat < c.toNat by omega]
        · by_cases hba : b.toNat < a.toNat
          · simp [hab, hba] at h1
          · by_cases hbc : b.toNat < c.toNat
            · simp [show a.toNat < c.toNat by omega]
            · by_cases hcb : c.toNat < b.toNat
              · simp [hbc, hcb] at h2
              · have hac : ¬ a.toNat < c.toNat := by omega
                have hca : ¬ c.toNat < a.toNat := by omega
                simp only [hab, hba, if_false] at h1
                simp only [hbc, hcb, if_false] at h2
                simp [hac, hca, ih bs cs h1 h2]

instance : IsTotal String strLeRel :=
  ⟨fun a b => charListLe_total a.data b.data⟩

instance : IsTrans String strLeRel :=
  ⟨fun a b c hab hbc => charListLe_trans a.data b.data c.data hab hbc⟩

/-! ### The filesystem model

A filesystem state is an explicit record of existing directories and regular
files (path and content bytes).  Mutating operations return the new state
together with the list of performed mutation events; reads return `Option`
(`none` models a thrown `ENOENT`). -/

/-- A filesystem mutation actually performed. -/
inductive FsEvent where
  | mkdirTree (p : FilePath)
  | removeFile (p : FilePath)
  | rename (src dst : FilePath)
  | writeFile (p : FilePath) (content : List Nat)
deriving DecidableEq, Repr

/-- A console progress line of the tool (source `console.log` calls). -/
inductive Report where
  | skipMissingDir (d : FilePath)
  | okNoCandidates
  | foundCount (n : Nat)
  | splitStart (p : FilePath) (size : Nat)
  | dryRunMove (src dst : FilePath)
  | moved (src dst : FilePath)
  | dryRunSplit (src dst : FilePath) (bytes : Nat)
  | done
  | errored
deriving DecidableEq, Repr

/-- Filesystem state: existing directories and regular files with contents. -/
structure FS where
  dirs : List FilePath
  files : List (FilePath × List Nat)
deriving DecidableEq, Repr

/-- Reading a file (`fs.promises.open(p, 'r')` + reads): its content bytes,
or `none` when the path does not exist. -/
def FS.read (fs : FS) (p : FilePath) : Option (List Nat) :=
  (fs.files.find? fun f => f.1 == p).map (·.2)

/-- Unconditional removal of a path from the file table. -/
def FS.removeFile (fs : FS) (p : FilePath) : FS :=
  { fs with files := fs.files.filter fun f => !(f.1 == p) }

/-- Writing a file (`open(p, 'w')` + writes + close): replaces any existing
entry at the path. -/
def FS.writeFile (fs : FS) (p : FilePath) (c : List Nat) : FS :=
  { fs with files := (fs.files.filter fun f => !(f.1 == p)) ++ [(p, c)] }

/-- The `fs.existsSync` check of source line 191, for directories. -/
def FS.dirExists (fs : FS) (p : FilePath) : Bool :=
  fs.dirs.contains p

/-- Source lines 99-101 `ensureDir`: `mkdir` with `recursive: true`; creating
an already-existing tree performs no mutation. -/
def FS.mkdirTree (fs : FS) (p : FilePath) : FS × List FsEvent :=
  if fs.dirExists p then (fs, [])
  else ({ fs with dirs := fs.dirs ++ [p] }, [FsEvent.mkdirTree p])

/-- Source lines 90-97 `removeFileIfExists`: unlink, swallowing `ENOENT`;
a mutation event is recorded only when a file was actually deleted. -/
def FS.removeIfExists (fs : FS) (p : FilePath) : FS × List FsEvent :=
  if (fs.read p).isSome then (fs.removeFile p, [FsEvent.removeFile p])
  else (fs, [])

/-- Source line 128 `fs.promises.rename`: fails (`none`) when the source is
missing; overwrites the destination. -/
def FS.renameFile (fs : FS) (src dst : FilePath) : Option (FS × List FsEvent) :=
  match fs.read src with
  | none => none
  | some c => some ((fs.removeFile src).writeFile dst c, [FsEvent.rename src dst])

/-- Source lines 52-68 `walkFiles`: all regular files lexically under `dir`,
in file-table order (the model's stand-in for the recursive `readdir`
traversal order; no claim depends on this order). -/
def walkFiles (fs : FS) (dir : FilePath) : List FilePath :=
  (fs.files.map (·.1)).filter fun p => dir.isPrefixOf p && decide (dir.length < p.length)

/-- The name of `p` as a direct entry of `dir`, when it is one. -/
def entryName? (dir p : FilePath) : Option String :=
  match p.drop dir.length with
  | [n] => if dir <+: p then some n else none
  | _ => none

/-- The `readdir(dir, ...)` entries that are regular files, by name. -/
def dirEntryNames (fs : FS) (dir : FilePath) : List String :=
  fs.files.filterMap fun f => entryName? dir f.1

/-- Source lines 74-88 `listExistingParts`: the files directly inside `dir`
whose name starts with `<baseName>.part` and ends, case-insensitively, with
`.part` plus exactly two digits, sorted, as full paths. -/
def listExistingParts (fs : FS) (dir : FilePath) (baseName : String) : List FilePath :=
  let names := (dirEntryNames fs dir).filter fun n =>
    strStartsWith n (baseName ++ ".part") && isPartSuffix n
  (names.insertionSort strLeRel).map fun n => dir ++ [n]

/-- The deletion loop of source lines 138-140: remove each listed path. -/
def deleteAll : FS → List FilePath → FS × List FsEvent
  | fs, [] => (fs, [])
  | fs, p :: rest =>
    let s := fs.removeIfExists p
    let r := deleteAll s.1 rest
    (r.1, s.2 ++ r.2)

/-! ### The orchestrator -/

/-- The repository root `REPO_ROOT` (source line 8), abstracted to a fixed
one-segment absolute path. -/
def repoRoot : FilePath := ["repo"]

/-- A file selected for splitting (source line 204). -/
structure Candidate where
  filePath : FilePath
  size : Nat
deriving DecidableEq, Repr

/-- The candidate ordering of source line 207, `(a, b) => b.size - a.size`:
largest size first. -/
def candGe (a b : Candidate) : Prop := b.size ≤ a.size

instance : DecidableRel candGe := fun a b => Nat.decLe b.size a.size

instance : IsTotal Candidate candGe :=
  ⟨fun a b => Nat.le_total b.size a.size⟩

instance : IsTrans Candidate candGe :=
  ⟨fun _ _ _ hab hbc => Nat.le_trans hbc hab⟩

/-- Source lines 199-207: filter the walked paths — skip part files, skip
files at or below the ceiling — then sort the candidates largest first.
The sort is modelled by stable insertion sort, matching the stable
`Array.prototype.sort`. -/
def selectCandidates (fs : FS) (paths : List FilePath) (maxBytes : Int) : List Candidate :=
  let cands := paths.filterMap fun p =>
    if isPartFile p then none
    else
      match fs.read p with
      | none => none
      | some content =>
        if (content.length : Int) ≤ maxBytes then none
        else some ⟨p, content.length⟩
  cands.insertionSort candGe

/-- Outcome of one step or one run segment: success flag, resulting
filesystem, performed mutations, and emitted progress reports. -/
structure StepOut where
  ok : Bool
  fs : FS
  events : List FsEvent
  reports : List Report
deriving DecidableEq, Repr

/-- Source lines 117-131 `moveToBackup`: compute the backup path; in dry-run
mode only report the planned move; otherwise create the backup directory
tree, remove any stale backup, and rename the file into place. -/
def moveToBackup (fs : FS) (filePath : FilePath) (dryRun : Bool) : StepOut :=
  let backupPath := getBackupPath repoRoot filePath
  let backupDir := backupPath.dropLast
  if dryRun then ⟨true, fs, [], [Report.dryRunMove filePath backupPath]⟩
  else
    let m := fs.mkdirTree backupDir
    let rm := m.1.removeIfExists backupPath
    match rm.1.renameFile filePath backupPath with
    | none => ⟨false, rm.1, m.2 ++ rm.2, []⟩
    | some rn => ⟨true, rn.1, m.2 ++ rm.2 ++ rn.2, [Report.moved filePath backupPath]⟩

/-- The dry-run branch of the split loop (source lines 157-162): reports the
planned part files without touching the filesystem. -/
def dryRunReports (sourcePath targetDir : FilePath) (baseName : String)
    (totalBytes chunkBytes : Nat) : Nat → Nat → Nat → List Report
  | 0, _, _ => []
  | fuel + 1, offset, part =>
    if offset < totalBytes then
      let e := min (offset + chunkBytes) totalBytes
      Report.dryRunSplit sourcePath (targetDir ++ [partFileName baseName part]) (e - offset)
        :: dryRunReports sourcePath targetDir baseName totalBytes chunkBytes fuel e (part + 1)
    else []

/-- Writing the produced parts into the filesystem, in production order. -/
def writeParts (targetDir : FilePath) (baseName : String) :
    FS → List (Nat × List Nat) → FS × List FsEvent
  | fs, [] => (fs, [])
  | fs, (i, content) :: rest =>
    let p := targetDir ++ [partFileName baseName i]
    let r := writeParts targetDir baseName (fs.writeFile p content) rest
    (r.1, FsEvent.writeFile p content :: r.2)

/-- Source lines 133-185 `splitFileFromSource`, acting on the filesystem:
list the existing parts of the base name, delete them (unless dry-run), then
open the source — failing if it does not exist — and stream it into new part
files (or, in dry-run mode, report the planned parts). -/
def splitFileFromSource (fs : FS) (sourcePath targetDir : FilePath) (baseName : String)
    (chunkBytes bufferBytes : Nat) (dryRun : Bool) : StepOut :=
  let d := if dryRun then (fs, []) else deleteAll fs (listExistingParts fs targetDir baseName)
  match d.1.read sourcePath with
  | none => ⟨false, d.1, d.2, []⟩
  | some data =>
    if dryRun then
      ⟨true, d.1, d.2,
        dryRunReports sourcePath targetDir baseName data.length chunkBytes
          (data.length + 1) 0 1⟩
    else
      let w := writeParts targetDir baseName d.1
        (splitLoop data chunkBytes bufferBytes (data.length + 1) 0 1).1
      ⟨true, w.1, d.2 ++ w.2, []⟩

/-- One iteration of the orchestrator loop (source lines 215-222): report the
candidate, relocate it to its backup path, then split from the backup copy
into the candidate's directory under the candidate's base name. -/
def processCandidate (fs : FS) (c : Candidate) (chunkBytes bufferBytes : Nat)
    (dryRun : Bool) : StepOut :=
  let targetDir := c.filePath.dropLast
  let baseName := (c.filePath.getLast?).getD ""
  let mv := moveToBackup fs c.filePath dryRun
  if mv.ok then
    let sp := splitFileFromSource mv.fs (getBackupPath repoRoot c.filePath) targetDir
      baseName chunkBytes bufferBytes dryRun
    ⟨sp.ok, sp.fs, mv.events ++ sp.events,
      Report.splitStart c.filePath c.size :: (mv.reports ++ sp.reports)⟩
  else
    ⟨false, mv.fs, mv.events, Report.splitStart c.filePath c.size :: mv.reports⟩

/-- The orchestrator loop over all candidates; a failure aborts the
remaining candidates (the thrown error propagates out of `main`). -/
def processAll (chunkBytes bufferBytes : Nat) (dryRun : Bool) :
    FS → List Candidate → StepOut
  | fs, [] => ⟨true, fs, [], []⟩
  | fs, c :: rest =>
    let s := processCandidate fs c chunkBytes bufferBytes dryRun
    if s.ok then
      let r := processAll chunkBytes bufferBytes dryRun s.fs rest
      ⟨r.ok, r.fs, s.events ++ r.events, s.reports ++ r.reports⟩
    else s

/-! ### Command-line parsing (source lines 11-50) -/

/-- A JavaScript number as relevant here: `Number.isFinite` either fails, or
the value is an integer (byte counts). -/
inductive JsNum where
  | nonFinite
  | finite (v : Int)
deriving DecidableEq, Repr

/-- The `Number.isFinite` test of source lines 39 and 42. -/
def JsNum.isFinite : JsNum → Bool
  | .nonFinite => false
  | .finite _ => true

/-- One `process.argv` entry, pre-classified by the prefix tests of source
lines 21-36 (`Number(...)` conversion abstracted into `JsNum`). -/
inductive CliArg where
  | dryRunFlag
  | dirOpt (d : FilePath)
  | maxBytesOpt (n : JsNum)
  | chunkBytesOpt (n : JsNum)
  | other
deriving DecidableEq, Repr

/-- Option accumulator of source lines 12-17. -/
structure RawArgs where
  dir : FilePath
  maxBytes : JsNum
  chunkBytes : JsNum
  dryRun : Bool
deriving DecidableEq, Repr

/-- Source line 4: the default release directory, as a path under the
repository root. -/
def defaultReleaseDir : FilePath := ["repo", "release"]

/-- Source line 5: 100 MiB. -/
def defaultMaxBytes : Int := 100 * 1024 * 1024

/-- Source line 6: 95 MiB. -/
def defaultChunkBytes : Int := 95 * 1024 * 1024

/-- Source line 7: 4 MiB. -/
def defaultBufferBytes : Nat := 4 * 1024 * 1024

/-- The initial accumulator of source lines 12-17. -/
def defaultRawArgs : RawArgs :=
  ⟨defaultReleaseDir, JsNum.finite defaultMaxBytes, JsNum.finite defaultChunkBytes, false⟩

/-- One iteration of the option loop (source lines 19-37). -/
def applyArg (a : RawArgs) : CliArg → RawArgs
  | .dryRunFlag => { a with dryRun := true }
  | .dirOpt d => { a with dir := d }
  | .maxBytesOpt n => { a with maxBytes := n }
  | .chunkBytesOpt n => { a with chunkBytes := n }
  | .other => a

/-- The validated run configuration. -/
structure Config where
  dir : FilePath
  maxBytes : Int
  chunkBytes : Int
  dryRun : Bool
deriving DecidableEq, Repr

/-- Source lines 11-50 `parseArgs`: fold the options over the defaults, then
validate — `maxBytes` finite and positive, `chunkBytes` finite and positive,
`chunkBytes ≤ maxBytes` — throwing (`Except.error`) on violation. -/
def parseArgs (argv : List CliArg) : Except String Config :=
  let a := argv.foldl applyArg defaultRawArgs
  match a.maxBytes with
  | .nonFinite => .error "Invalid --max-bytes"
  | .finite m =>
    if m ≤ 0 then .error "Invalid --max-bytes"
    else
      match a.chunkBytes with
      | .nonFinite => .error "Invalid --chunk-bytes"
      | .finite cb =>
        if cb ≤ 0 then .error "Invalid --chunk-bytes"
        else if m < cb then .error "--chunk-bytes must be <= --max-bytes"
        else .ok ⟨a.dir, m, cb, a.dryRun⟩

/-- Outcome of a whole run of `main` (source lines 187-230): the process
exit code, final filesystem, performed mutations, progress reports, whether
the walker ran, and the selected candidate list. -/
structure RunOut where
  exitCode : Nat
  fs : FS
  events : List FsEvent
  reports : List Report
  walkerInvoked : Bool
  candidates : List Candidate
deriving DecidableEq, Repr

/-- Source lines 187-230: `main` plus the final `catch` that reports any
error and sets a non-zero exit code.  A configuration error aborts before
any filesystem access; a missing release directory is a successful no-op;
otherwise candidates are selected and processed in order, a failure aborting
the remainder. -/
def runMain (fs : FS) (argv : List CliArg) : RunOut :=
  match parseArgs argv with
  | .error _ => ⟨1, fs, [], [Report.errored], false, []⟩
  | .ok cfg =>
    if fs.dirExists cfg.dir then
      let cands := selectCandidates fs (walkFiles fs cfg.dir) cfg.maxBytes
      if cands.length = 0 then ⟨0, fs, [], [Report.okNoCandidates], true, cands⟩
      else
        let r := processAll cfg.chunkBytes.toNat defaultBufferBytes cfg.dryRun fs cands
        ⟨if r.ok then 0 else 1, r.fs, r.events,
          Report.foundCount cands.length :: r.reports
            ++ (if r.ok then [Report.done] else [Report.errored]),
          true, cands⟩
    else ⟨0, fs, [], [Report.skipMissingDir cfg.dir], false, []⟩

/-! ### Concrete run scenarios used by C2, C3 and C4 -/

/-- A release tree holding one oversized file and no backup tree. -/
def freshFs : FS :=
  ⟨[["repo", "release"]], [(["repo", "release", "big.bin"], [1, 2, 3, 4, 5, 6, 7, 8, 9])]⟩

/-- A dry run over the 9-byte file with ceiling 4 and chunk size 2. -/
def dryRunArgv : List CliArg :=
  [CliArg.maxBytesOpt (JsNum.finite 4), CliArg.chunkBytesOpt (JsNum.finite 2),
   CliArg.dryRunFlag]

/-- A real run with ceiling 4 and chunk size 2. -/
def realRunArgv : List CliArg :=
  [CliArg.maxBytesOpt (JsNum.finite 4), CliArg.chunkBytesOpt (JsNum.finite 2)]

/-- The release tree of `freshFs` with an additional stale part file left by
an earlier split. -/
def stalePartFs : FS :=
  ⟨[["repo", "release"]],
   [(["repo", "release", "big.bin"], [1, 2, 3, 4, 5, 6, 7, 8, 9]),
    (["repo", "release", "big.bin.part01"], [7])]⟩

/-- A release tree with an oversized `app.bin` and a file whose name carries
an upper-case part suffix, `app.bin.PART01`. -/
def upperPartFs : FS :=
  ⟨[["repo", "release"]],
   [(["repo", "release", "app.bin"], [1, 2, 3, 4, 5, 6, 7, 8, 9]),
    (["repo", "release", "app.bin.PART01"], [7])]⟩

/-- C2, evaluated at the failing input: on a fresh release tree (no backup
tree yet), a dry run still performs zero filesystem mutations and selects
the same single candidate a real run would, but it does not report the
planned split actions: after reporting the planned move it tries to open the
backup copy — which dry-run mode never created — so the run aborts with exit
code 1 and the planned `part01..part05` split of `big.bin` is never
reported. -/
theorem dry_run_aborts_on_missing_backup :
    runMain freshFs dryRunArgv =
      ⟨1, freshFs, [],
       [Report.foundCount 1, Report.splitStart ["repo", "release", "big.bin"] 9,
        Report.dryRunMove ["repo", "release", "big.bin"]
          ["repo", "backup", "release", "big.bin"],
        Report.errored],
       true, [⟨["repo", "release", "big.bin"], 9⟩]⟩ := by
  decide

/-- Counterexample to C3 as stated: in a real run over a tree holding a
stale `big.bin.part01`, the relocation of the original to its backup
location (the rename event) happens strictly before the reset of the
existing parts (the removal of `big.bin.part01`), so the per-candidate order
is relocate → reset → split, not reset → relocate → split. -/
theorem relocate_precedes_reset_cex :
    (runMain stalePartFs realRunArgv).events.indexOf
        (FsEvent.rename ["repo", "release", "big.bin"]
          ["repo", "backup", "release", "big.bin"])
      < (runMain stalePartFs realRunArgv).events.indexOf
        (FsEvent.removeFile ["repo", "release", "big.bin.part01"])
    ∧ (runMain stalePartFs realRunArgv).events.indexOf
        (FsEvent.removeFile ["repo", "release", "big.bin.part01"])
      < (runMain stalePartFs realRunArgv).events.length := by
  decide

/-- Modelled from the spec's words for C4: a file name matches
`<baseName>.partNN` with a case-insensitive suffix of exactly two digits —
the base name followed by exactly seven characters forming a
case-insensitive `.part` plus two digits. -/
def specPartNameMatches (baseName name : String) : Bool :=
  (name.data.take baseName.data.length == baseName.data)
  && (name.data.length == baseName.data.length + 7)
  && isPartSuffix name

/-- Counterexample to C4 as stated: `app.bin.PART01` matches
`app.bin.partNN` with a case-insensitive suffix, so per the claim the reset
deletes it; but `listExistingParts` requires the case-sensitive name prefix
`app.bin.part`, does not list it, and the file survives a full successful
re-split of `app.bin`. -/
theorem reset_skips_uppercase_part_cex :
    specPartNameMatches "app.bin" "app.bin.PART01" = true
    ∧ listExistingParts upperPartFs ["repo", "release"] "app.bin" = []
    ∧ (runMain upperPartFs realRunArgv).exitCode = 0
    ∧ ((runMain upperPartFs realRunArgv).fs.read
        ["repo", "release", "app.bin.PART01"]) = some [7] := by
  decide

/-! ### Event-trace lemmas -/

theorem mkdirTree_events (fs : FS) (d : FilePath) :
    ∀ e ∈ (fs.mkdirTree d).2, e = FsEvent.mkdirTree d := by
  intro e he
  unfold FS.mkdirTree at he
  split at he
  · simp at he
  · simp at he
    exact he

theorem removeIfExists_events (fs : FS) (p : FilePath) :
    ∀ e ∈ (fs.removeIfExists p).2, e = FsEvent.removeFile p := by
  intro e he
  unfold FS.removeIfExists at he
  split at he
  · simp at he
    exact he
  · simp at he

theorem moveToBackup_events (fs : FS) (p : FilePath) :
    ∀ e ∈ (moveToBackup fs p false).events,
      e = FsEvent.mkdirTree ((getBackupPath repoRoot p).dropLast)
      ∨ e = FsEvent.removeFile (getBackupPath repoRoot p)
      ∨ e = FsEvent.rename p (getBackupPath repoRoot p) := by
  intro e he
  unfold moveToBackup at he
  simp only [Bool.false_eq_true, if_false] at he
  cases hrn : ((fs.mkdirTree (getBackupPath repoRoot p).dropLast).1.removeIfExists
      (getBackupPath repoRoot p)).1.renameFile p (getBackupPath repoRoot p) with
  | none =>
    rw [hrn] at he
    simp only [List.mem_append] at he
    rcases he with he | he
    · exact Or.inl (mkdirTree_events _ _ e he)
    · exact Or.inr (Or.inl (removeIfExists_events _ _ e he))
  | some rn =>
    rw [hrn] at he
    simp only [List.mem_append] at he
    rcases he with (he | he) | he
    · exact Or.inl (mkdirTree_events _ _ e he)
    · exact Or.inr (Or.inl (removeIfExists_events _ _ e he))
    · unfold FS.renameFile at hrn
      cases hget : ((fs.mkdirTree (getBackupPath repoRoot p).dropLast).1.removeIfExists
          (getBackupPath repoRoot p)).1.read p with
      | none => rw [hget] at hrn; simp at hrn
      | some c =>
        rw [hget] at hrn
        simp at hrn
        rw [← hrn] at he
        simp at he
        exact Or.inr (Or.inr he)

theorem deleteAll_events (ps : List FilePath) : ∀ (fs : FS) (e : FsEvent),
    e ∈ (deleteAll fs ps).2 → ∃ p ∈ ps, e = FsEvent.removeFile p := by
  induction ps with
  | nil => intro fs e he; simp [deleteAll] at he
  | cons p rest ih =>
    intro fs e he
    simp only [deleteAll, List.mem_append] at he
    rcases he with he | he
    · exact ⟨p, by simp, removeIfExists_events fs p e he⟩
    · obtain ⟨q, hq, rfl⟩ := ih _ e he
      exact ⟨q, by simp [hq], rfl⟩

theorem writeParts_events (tdir : FilePath) (bn : String) :
    ∀ (parts : List (Nat × List Nat)) (fs : FS) (e : FsEvent),
      e ∈ (writeParts tdir bn fs parts).2 →
      ∃ i content, e = FsEvent.writeFile (tdir ++ [partFileName bn i]) content := by
  intro parts
  induction parts with
  | nil => intro fs e he; simp [writeParts] at he
  | cons pc rest ih =>
    intro fs e he
    obtain ⟨i, content⟩ := pc
    simp only [writeParts, List.mem_cons] at he
    rcases he with rfl | he
    · exact ⟨i, content, rfl⟩
    · exact ih _ e he

theorem splitFileFromSource_events (fs : FS) (src tdir : FilePath) (bn : String)
    (C b : Nat) :
    ∃ rst wr,
      (splitFileFromSource fs src tdir bn C b false).events = rst ++ wr
      ∧ (∀ e ∈ rst, ∃ p ∈ listExistingParts fs tdir bn, e = FsEvent.removeFile p)
      ∧ (∀ e ∈ wr, ∃ i content,
          e = FsEvent.writeFile (tdir ++ [partFileName bn i]) content) := by
  cases hread : (deleteAll fs (listExistingParts fs tdir bn)).1.read src with
  | none =>
    refine ⟨(deleteAll fs (listExistingParts fs tdir bn)).2, [], ?_,
      fun e he => deleteAll_events _ _ e he, by simp⟩
    simp [splitFileFromSource, hread]
  | some data =>
    refine ⟨(deleteAll fs (listExistingParts fs tdir bn)).2,
      (writeParts tdir bn (deleteAll fs (listExistingParts fs tdir bn)).1
        (splitLoop data C b (data.length + 1) 0 1).1).2, ?_,
      fun e he => deleteAll_events _ _ e he,
      fun e he => writeParts_events tdir bn _ _ e he⟩
    simp [splitFileFromSource, hread]

/-- C3 amended: for every candidate, the real-mode orchestrator performs the
per-candidate mutations in the order: relocation of the original to its
backup location first (directory creation, stale-backup removal, rename),
then the reset of existing parts (removals of the listed part paths of the
candidate's base name), then the split writes of new part files into the
candidate's original directory under the candidate's original name. -/
theorem per_candidate_relocate_then_reset_then_split (fs : FS) (c : Candidate)
    (C b : Nat) :
    ∃ mv rst wr,
      (processCandidate fs c C b false).events = mv ++ rst ++ wr
      ∧ (∀ e ∈ mv,
          e = FsEvent.mkdirTree ((getBackupPath repoRoot c.filePath).dropLast)
          ∨ e = FsEvent.removeFile (getBackupPath repoRoot c.filePath)
          ∨ e = FsEvent.rename c.filePath (getBackupPath repoRoot c.filePath))
      ∧ (∀ e ∈ rst, ∃ p ∈ listExistingParts (moveToBackup fs c.filePath false).fs
            c.filePath.dropLast ((c.filePath.getLast?).getD ""),
          e = FsEvent.removeFile p)
      ∧ (∀ e ∈ wr, ∃ i content,
          e = FsEvent.writeFile
            (c.filePath.dropLast ++ [partFileName ((c.filePath.getLast?).getD "") i])
            content) := by
  by_cases hok : (moveToBackup fs c.filePath false).ok = true
  · obtain ⟨rst, wr, hev, hrst, hwr⟩ := splitFileFromSource_events
      (moveToBackup fs c.filePath false).fs (getBackupPath repoRoot c.filePath)
      c.filePath.dropLast ((c.filePath.getLast?).getD "") C b
    refine ⟨(moveToBackup fs c.filePath false).events, rst, wr, ?_,
      moveToBackup_events fs c.filePath, hrst, hwr⟩
    simp [processCandidate, hok, hev]
  · refine ⟨(moveToBackup fs c.filePath false).events, [], [], ?_,
      moveToBackup_events fs c.filePath, by simp, by simp⟩
    simp [processCandidate, hok]

/-- Witness for the amended C3, at the concrete stale-part scenario. -/
theorem per_candidate_relocate_then_reset_then_split_witness :
    ∃ mv rst wr,
      (processCandidate stalePartFs ⟨["repo", "release", "big.bin"], 9⟩ 2 4 false).events
          = mv ++ rst ++ wr
      ∧ (∀ e ∈ mv,
          e = FsEvent.mkdirTree ((getBackupPath repoRoot
              (["repo", "release", "big.bin"] : FilePath)).dropLast)
          ∨ e = FsEvent.removeFile (getBackupPath repoRoot ["repo", "release", "big.bin"])
          ∨ e = FsEvent.rename ["repo", "release", "big.bin"]
              (getBackupPath repoRoot ["repo", "release", "big.bin"]))
      ∧ (∀ e ∈ rst, ∃ p ∈ listExistingParts
            (moveToBackup stalePartFs ["repo", "release", "big.bin"] false).fs
            (["repo", "release", "big.bin"] : FilePath).dropLast
            (((["repo", "release", "big.bin"] : FilePath).getLast?).getD ""),
          e = FsEvent.removeFile p)
      ∧ (∀ e ∈ wr, ∃ i content,
          e = FsEvent.writeFile
            ((["repo", "release", "big.bin"] : FilePath).dropLast
              ++ [partFileName (((["repo", "release", "big.bin"] : FilePath).getLast?).getD "") i])
            content) :=
  per_candidate_relocate_then_reset_then_split stalePartFs
    ⟨["repo", "release", "big.bin"], 9⟩ 2 4

/-! ### Reads after removal, and exactness of the part-set reset -/

theorem find?_filter_beq (l : List (FilePath × List Nat)) (p q : FilePath) :
    (l.filter fun f => !(f.1 == q)).find? (fun f => f.1 == p)
      = if p = q then none else l.find? (fun f => f.1 == p) := by
  induction l with
  | nil => by_cases hpq : p = q <;> simp [hpq]
  | cons f t ih =>
    rw [List.filter_cons]
    by_cases hfq : f.1 = q
    · rw [show (!(f.1 == q)) = false by simp [hfq]]
      simp only [Bool.false_eq_true, if_false]
      rw [ih]
      by_cases hpq : p = q
      · simp [hpq]
      · have hfp : ¬ (f.1 = p) := fun hh => hpq (hh.symm.trans hfq)
        rw [if_neg hpq, if_neg hpq, List.find?_cons_of_neg _ (by simp [hfp])]
    · rw [show (!(f.1 == q)) = true by simp [hfq]]
      simp only [if_true]
      by_cases hfp : f.1 = p
      · have hpq : ¬ (p = q) := fun hh => hfq (hfp.trans hh)
        rw [if_neg hpq, List.find?_cons_of_pos _ (by simp [hfp]),
          List.find?_cons_of_pos _ (by simp [hfp])]
      · rw [List.find?_cons_of_neg _ (by simp [hfp]),
          List.find?_cons_of_neg _ (by simp [hfp]), ih]

theorem read_removeFile (fs : FS) (p q : FilePath) :
    (fs.removeFile q).read p = if p = q then none else fs.read p := by
  unfold FS.read FS.removeFile
  rw [find?_filter_beq]
  by_cases hpq : p = q <;> simp [hpq]

theorem read_removeIfExists (fs : FS) (p q : FilePath) :
    (fs.removeIfExists q).1.read p = if p = q then none else fs.read p := by
  unfold FS.removeIfExists
  by_cases hq : (fs.read q).isSome
  · simp only [hq, if_true]
    exact read_removeFile fs p q
  · simp only [hq, Bool.false_eq_true, if_false]
    by_cases hpq : p = q
    · subst hpq
      simp only [if_pos rfl]
      simpa using hq
    · simp [hpq]

theorem deleteAll_read (ps : List FilePath) : ∀ (fs : FS) (q : FilePath),
    (deleteAll fs ps).1.read q = if q ∈ ps then none else fs.read q := by
  induction ps with
  | nil => intro fs q; simp [deleteAll]
  | cons p rest ih =>
    intro fs q
    simp only [deleteAll]
    rw [ih]
    by_cases hqr : q ∈ rest
    · simp [hqr]
    · rw [if_neg hqr, read_removeIfExists]
      by_cases hqp : q = p
      · simp [hqp]
      · simp [hqp, hqr]

theorem entryName?_eq_some (dir p : FilePath) (n : String) :
    entryName? dir p = some n ↔ p = dir ++ [n] := by
  constructor
  · intro h
    unfold entryName? at h
    split at h
    · next m heq =>
      split at h
      · next hpre =>
        obtain ⟨t, rfl⟩ := hpre
        rw [List.drop_left] at heq
        simp only [Option.some.injEq] at h
        rw [heq, h]
      · exact absurd h (by simp)
    · exact absurd h (by simp)
  · rintro rfl
    have hd : (dir ++ [n]).drop dir.length = [n] := List.drop_left _ _
    unfold entryName?
    rw [hd]
    simp

theorem mem_listExistingParts (fs : FS) (dir : FilePath) (baseName n : String) :
    (dir ++ [n]) ∈ listExistingParts fs dir baseName ↔
      (∃ content, (dir ++ [n], content) ∈ fs.files)
      ∧ (strStartsWith n (baseName ++ ".part") && isPartSuffix n) = true := by
  unfold listExistingParts
  rw [List.mem_map]
  constructor
  · rintro ⟨m, hm, heq⟩
    have hmn : m = n := by
      have := List.append_cancel_left heq
      simpa using this
    subst hmn
    rw [(List.perm_insertionSort strLeRel _).mem_iff, List.mem_filter] at hm
    refine ⟨?_, hm.2⟩
    obtain ⟨f, hf, hfn⟩ := List.mem_filterMap.1 hm.1
    rw [entryName?_eq_some] at hfn
    exact ⟨f.2, by rw [← hfn]; exact hf⟩
  · rintro ⟨⟨content, hmem⟩, hcond⟩
    refine ⟨n, ?_, rfl⟩
    rw [(List.perm_insertionSort strLeRel _).mem_iff, List.mem_filter]
    refine ⟨?_, hcond⟩
    exact List.mem_filterMap.2 ⟨(dir ++ [n], content), hmem, (entryName?_eq_some _ _ _).2 rfl⟩

theorem read_eq_none_of_not_mem (fs : FS) (p : FilePath)
    (h : ∀ content, (p, content) ∉ fs.files) : fs.read p = none := by
  unfold FS.read
  rw [List.find?_eq_none.2]
  · rfl
  · intro f hf
    simp only [beq_iff_eq]
    intro hfp
    exact h f.2 (by rw [← hfp]; exact hf)

/-- C4 amended: the part-set reset deletes exactly the existing files in the
target directory whose names start with the case-sensitive prefix
`<baseName>.part` and end, case-insensitively, with `.part` followed by
exactly two digits, processing them in sorted order; in particular, after
the reset no file whose name has that shape — which includes every
`<baseName>.partNN` name this tool itself produces — survives in the target
directory, and every other file is untouched. -/
theorem resetParts_exact (fs : FS) (dir : FilePath) (baseName n : String) :
    ((dir ++ [n]) ∈ listExistingParts fs dir baseName ↔
      (∃ content, (dir ++ [n], content) ∈ fs.files)
      ∧ (strStartsWith n (baseName ++ ".part") && isPartSuffix n) = true)
    ∧ List.Sorted strLeRel
        ((listExistingParts fs dir baseName).map fun p => (p.getLast?).getD "")
    ∧ (∀ e ∈ (deleteAll fs (listExistingParts fs dir baseName)).2,
        ∃ p ∈ listExistingParts fs dir baseName, e = FsEvent.removeFile p)
    ∧ ((strStartsWith n (baseName ++ ".part") && isPartSuffix n) = true →
        (deleteAll fs (listExistingParts fs dir baseName)).1.read (dir ++ [n]) = none)
    ∧ ((dir ++ [n]) ∉ listExistingParts fs dir baseName →
        (deleteAll fs (listExistingParts fs dir baseName)).1.read (dir ++ [n])
          = fs.read (dir ++ [n])) := by
  refine ⟨mem_listExistingParts fs dir baseName n, ?_, ?_, ?_, ?_⟩
  · unfold listExistingParts
    rw [List.map_map]
    have hcomp : ((fun p => (List.getLast? p).getD "") ∘ fun m => dir ++ [m])
        = (id : String → String) := by
      funext m
      simp [List.getLast?_concat]
    rw [hcomp, List.map_id]
    exact List.sorted_insertionSort strLeRel _
  · exact fun e he => deleteAll_events _ _ e he
  · intro hcond
    rw [deleteAll_read]
    by_cases hmem : (dir ++ [n]) ∈ listExistingParts fs dir baseName
    · rw [if_pos hmem]
    · rw [if_neg hmem]
      apply read_eq_none_of_not_mem
      intro content hc
      exact hmem ((mem_listExistingParts fs dir baseName n).2 ⟨⟨content, hc⟩, hcond⟩)
  · intro hmem
    rw [deleteAll_read, if_neg hmem]

/-- Witness for the amended C4: in the stale-part scenario, the lone stale
`big.bin.part01` is gone after the reset. -/
theorem resetParts_exact_witness :
    (deleteAll stalePartFs
        (listExistingParts stalePartFs ["repo", "release"] "big.bin")).1.read
      (["repo", "release"] ++ ["big.bin.part01"]) = none :=
  (resetParts_exact stalePartFs ["repo", "release"] "big.bin" "big.bin.part01").2.2.2.1
    (by decide)

/-- C6: candidate selection returns, ordered largest size first, exactly
those walked files whose size is strictly greater than the size ceiling and
whose name does not match the part-file pattern `*.partNN` (two digits);
every part file and every file of size at most the ceiling is excluded. -/
theorem selectCandidates_exact (fs : FS) (dir : FilePath) (maxBytes : Int) :
    List.Sorted candGe (selectCandidates fs (walkFiles fs dir) maxBytes)
    ∧ ∀ c : Candidate,
        (c ∈ selectCandidates fs (walkFiles fs dir) maxBytes ↔
          c.filePath ∈ walkFiles fs dir ∧ isPartFile c.filePath = false
          ∧ (∃ content, fs.read c.filePath = some content ∧ content.length = c.size)
          ∧ maxBytes < (c.size : Int)) := by
  constructor
  · unfold selectCandidates
    exact List.sorted_insertionSort candGe _
  · intro c
    unfold selectCandidates
    rw [(List.perm_insertionSort candGe _).mem_iff, List.mem_filterMap]
    constructor
    · rintro ⟨p, hp, hfn⟩
      by_cases hpart : isPartFile p
      · simp [hpart] at hfn
      · cases hread : fs.read p with
        | none => simp [hpart, hread] at hfn
        | some content =>
          by_cases hle : (content.length : Int) ≤ maxBytes
          · simp [hpart, hread, hle] at hfn
          · simp only [hpart, Bool.false_eq_true, if_false, hread, hle,
              if_neg hle, Option.some.injEq] at hfn
            rw [← hfn]
            exact ⟨hp, by simpa using hpart, ⟨content, hread, rfl⟩, by simp; omega⟩
    · rintro ⟨hw, hpart, ⟨content, hread, hlen⟩, hgt⟩
      refine ⟨c.filePath, hw, ?_⟩
      have hle : ¬ ((content.length : Int) ≤ maxBytes) := by omega
      simp only [hpart, Bool.false_eq_true, if_false, hread, hle, Option.some.injEq]
      rw [hlen]

/-- Witness for C6: in the fresh scenario, the one oversized file is
selected as a candidate of its exact size. -/
theorem selectCandidates_exact_witness :
    (⟨["repo", "release", "big.bin"], 9⟩ : Candidate)
      ∈ selectCandidates freshFs (walkFiles freshFs ["repo", "release"]) 4 :=
  ((selectCandidates_exact freshFs ["repo", "release"] 4).2 _).mpr
    ⟨by decide, by decide, ⟨[1, 2, 3, 4, 5, 6, 7, 8, 9], by decide, by decide⟩, by decide⟩

/-- C8: an invalid configuration — a non-finite or non-positive size or
chunk value, or a chunk size exceeding the size ceiling — makes the run
fail before performing any filesystem access: the error is reported, no
mutation happens, the walker never runs, and the exit code is 1; a valid
configuration parses successfully into exactly the folded option values,
raising no error. -/
theorem config_error_before_io (fs : FS) (argv : List CliArg) :
    (∀ e, parseArgs argv = Except.error e →
        runMain fs argv = ⟨1, fs, [], [Report.errored], false, []⟩)
    ∧ ((argv.foldl applyArg defaultRawArgs).maxBytes.isFinite = false →
        ∃ e, parseArgs argv = Except.error e)
    ∧ ((argv.foldl applyArg defaultRawArgs).chunkBytes.isFinite = false →
        ∃ e, parseArgs argv = Except.error e)
    ∧ (∀ m cb, (argv.foldl applyArg defaultRawArgs).maxBytes = JsNum.finite m →
        (argv.foldl applyArg defaultRawArgs).chunkBytes = JsNum.finite cb →
        (m ≤ 0 ∨ cb ≤ 0 ∨ m < cb) → ∃ e, parseArgs argv = Except.error e)
    ∧ (∀ m cb, (argv.foldl applyArg defaultRawArgs).maxBytes = JsNum.finite m →
        (argv.foldl applyArg defaultRawArgs).chunkBytes = JsNum.finite cb →
        0 < m → 0 < cb → cb ≤ m →
        parseArgs argv = Except.ok ⟨(argv.foldl applyArg defaultRawArgs).dir, m, cb,
          (argv.foldl applyArg defaultRawArgs).dryRun⟩) := by
  refine ⟨?_, ?_, ?_, ?_, ?_⟩
  · intro e he
    unfold runMain
    rw [he]
  · intro hnf
    simp only [parseArgs]
    cases hm : (argv.foldl applyArg defaultRawArgs).maxBytes with
    | nonFinite => exact ⟨_, rfl⟩
    | finite m => rw [hm] at hnf; simp [JsNum.isFinite] at hnf
  · intro hnf
    simp only [parseArgs]
    cases hm : (argv.foldl applyArg defaultRawArgs).maxBytes with
    | nonFinite => exact ⟨_, rfl⟩
    | finite m =>
      by_cases hm0 : m ≤ 0
      · simp only [hm0, if_true]
        exact ⟨_, rfl⟩
      · simp only [hm0, if_false]
        cases hcb : (argv.foldl applyArg defaultRawArgs).chunkBytes with
        | nonFinite => exact ⟨_, rfl⟩
        | finite cb => rw [hcb] at hnf; simp [JsNum.isFinite] at hnf
  · intro m cb hm hcb hbad
    simp only [parseArgs]
    rw [hm, hcb]
    by_cases hm0 : m ≤ 0
    · simp only [hm0, if_true]
      exact ⟨_, rfl⟩
    · simp only [hm0, if_false]
      by_cases hcb0 : cb ≤ 0
      · simp only [hcb0, if_true]
        exact ⟨_, rfl⟩
      · simp only [hcb0, if_false]
        have hlt : m < cb := by omega
        simp only [hlt, if_true]
        exact ⟨_, rfl⟩
  · intro m cb hm hcb hm0 hcb0 hle
    simp only [parseArgs]
    rw [hm, hcb]
    have h1 : ¬ (m ≤ 0) := by omega
    have h2 : ¬ (cb ≤ 0) := by omega
    have h3 : ¬ (m < cb) := by omega
    simp only [h1, h2, h3, if_false]

/-- Witness for C8: a chunk size of 192 MiB exceeds the default 100 MiB
ceiling, and the run aborts with exit code 1 without touching the
filesystem. -/
theorem config_error_before_io_witness :
    runMain freshFs [CliArg.chunkBytesOpt (JsNum.finite 201326592)]
      = ⟨1, freshFs, [], [Report.errored], false, []⟩ :=
  (config_error_before_io freshFs [CliArg.chunkBytesOpt (JsNum.finite 201326592)]).1
    "--chunk-bytes must be <= --max-bytes" (by rfl)

/-- C9: when the configured root directory does not exist, the run is a
successful no-op — the walker is never invoked, no filesystem mutation
occurs, and the exit code is zero. -/
theorem missing_root_dir_noop (fs : FS) (argv : List CliArg) (cfg : Config)
    (hok : parseArgs argv = Except.ok cfg) (hdir : fs.dirExists cfg.dir = false) :
    runMain fs argv = ⟨0, fs, [], [Report.skipMissingDir cfg.dir], false, []⟩ := by
  unfold runMain
  rw [hok]
  simp [hdir]

/-- Witness for C9: a run with default options over an empty filesystem
(where the default release directory does not exist) succeeds as a no-op. -/
theorem missing_root_dir_noop_witness :
    runMain ⟨[], []⟩ [] = ⟨0, ⟨[], []⟩, [],
      [Report.skipMissingDir ["repo", "release"]], false, []⟩ :=
  missing_root_dir_noop ⟨[], []⟩ []
    ⟨["repo", "release"], 104857600, 99614720, false⟩ (by rfl) (by rfl)

/-- Counterexample to C5 as stated: the path `/repo/_external/big.bin` is
lexically inside the repository root `/repo`, yet its computed backup path
contains an `_external` segment (mirrored from the repo-relative path), so
the backup path of an inside-repo path is not always free of `_external`
segments. -/
theorem getBackupPath_external_segment_cex :
    (["repo"] : FilePath) <+: ["repo", "_external", "big.bin"] ∧
    ¬ ("_external" ∉ getBackupPath ["repo"] ["repo", "_external", "big.bin"]) := by
  decide

/-- C5 amended: the path classifier is a deterministic pure function of the
input path and repository root; every absolute path that is lexically inside
the repository root and whose repo-relative form neither starts with the two
characters `..` nor contains a `:` maps to backupRoot joined with its
repo-relative path (so its backup path contains an `_external` segment only
when the repo-relative path itself does), and every path not lexically
inside the repository root maps under `backupRoot/_external/ROOT/`. -/
theorem getBackupPath_classification (root p : FilePath) :
    (root <+: p → relStartsWithDotDot (p.drop root.length) = false →
      relContainsColon (p.drop root.length) = false →
      getBackupPath root p = backupRoot root ++ p.drop root.length)
    ∧ (¬ root <+: p →
      getBackupPath root p = backupRoot root ++ ["_external", "ROOT"] ++ p) := by
  constructor
  · intro hpre hdd hcol
    have hrel := relativeSegs_of_prefix root p hpre
    simp [getBackupPath, hrel, hdd, hcol]
  · intro hnp
    have hdd := relStartsWithDotDot_of_not_prefix root p hnp
    simp [getBackupPath, hdd]

/-- Witness for the amended C5 at a concrete inside-repo path and a concrete
outside path. -/
theorem getBackupPath_classification_witness :
    getBackupPath ["repo"] ["repo", "release", "app.bin"]
      = ["repo", "backup", "release", "app.bin"]
    ∧ getBackupPath ["repo"] ["opt", "data", "app.bin"]
      = ["repo", "backup", "_external", "ROOT", "opt", "data", "app.bin"] :=
  ⟨((getBackupPath_classification ["repo"] ["repo", "release", "app.bin"]).1
      (by decide) (by decide) (by decide)).trans (by decide),
   ((getBackupPath_classification ["repo"] ["opt", "data", "app.bin"]).2
      (by decide)).trans (by decide)⟩

/-- C10: for every normalized absolute input path (no `..` segments — which
is what the orchestrator passes, since Node's `path.resolve`, `path.join`
and the directory walk only yield normalized paths), the backup path
computed by the classifier is lexically contained under the backup root,
and the portion below the backup root contains no `..` segment, so the
backup path never escapes the backup root. -/
theorem getBackupPath_under_backupRoot (root p : FilePath) (hp : ".." ∉ p) :
    backupRoot root <+: getBackupPath root p
    ∧ ".." ∉ (getBackupPath root p).drop (root.length + 1) := by
  have hlen : (backupRoot root).length = root.length + 1 := by simp [backupRoot]
  unfold getBackupPath
  by_cases hc : (!relStartsWithDotDot (relativeSegs root p)
      && !relContainsColon (relativeSegs root p)) = true
  · rw [if_pos hc]
    have hpre : root <+: p := by
      by_contra hnp
      have := relStartsWithDotDot_of_not_prefix root p hnp
      simp [this] at hc
    have hrel : relativeSegs root p = p.drop root.length :=
      relativeSegs_of_prefix root p hpre
    constructor
    · exact List.prefix_append _ _
    · rw [List.drop_left' hlen, hrel]
      intro hmem
      exact hp (List.drop_subset _ _ hmem)
  · rw [if_neg hc]
    constructor
    · rw [List.append_assoc]
      exact List.prefix_append _ _
    · rw [List.append_assoc, List.drop_left' hlen]
      intro hmem
      rcases List.mem_append.1 hmem with hmem | hmem
      · revert hmem; decide
      · exact hp hmem

/-- Witness for C10 at a concrete outside path with no parent-directory
segments. -/
theorem getBackupPath_under_backupRoot_witness :
    backupRoot ["repo"] <+: getBackupPath ["repo"] ["opt", "data", "big.bin"]
    ∧ ".." ∉ (getBackupPath ["repo"] ["opt", "data", "big.bin"]).drop 2 :=
  getBackupPath_under_backupRoot ["repo"] ["opt", "data", "big.bin"] (by decide)

/-- Witness for C1: the theorem applied at a 5-byte file with chunk size 2
and buffer size 1; the parts concatenate back to the source. -/
theorem split_part_count_sizes_concat_witness :
    (0 : Nat) < 2 ∧ (splitFileParts [10, 20, 30, 40, 50] 2 1).flatten = [10, 20, 30, 40, 50] :=
  ⟨by decide,
   (split_part_count_sizes_concat [10, 20, 30, 40, 50] 2 1 (by decide) (by decide)).2.2.2.1⟩

/-- Witness for C7: a concrete read issued while splitting a 5-byte file with
chunk size 3 and buffer size 2 is within the buffer bound. -/
theorem split_reads_bounded_witness :
    2 ∈ splitFileReads [10, 20, 30, 40, 50] 3 2 ∧ 2 ≤ 2 :=
  ⟨by decide, split_reads_bounded [10, 20, 30, 40, 50] 3 2 2 (by decide)⟩

end SplitRelease
